import Mathlib

/-!
Verification of the GTFS travel-time pipeline (`process_gtfs.py`).

The Python source is shallowly embedded: dictionaries become association
lists (`alookup` / `aset` keep the first-occurrence semantics of an
ordered dict), floats become rationals, the `heapq` priority queue
becomes a list with an exact minimum-pop, and fallible code returns
`Except`.  All definitions are executable.
-/

deriving instance DecidableEq for Except

namespace ProcessGtfs

/-! ## Association lists (embedding of Python dicts) -/

def alookup {α β : Type} [DecidableEq α] : List (α × β) → α → Option β
  | [], _ => none
  | (k, v) :: l, a => if k = a then some v else alookup l a

def aset {α β : Type} [DecidableEq α] : List (α × β) → α → β → List (α × β)
  | [], a, b => [(a, b)]
  | (k, v) :: l, a, b => if k = a then (a, b) :: l else (k, v) :: aset l a b

/-- Append a value to the list stored under a key, creating the key with an
empty list first when it is absent (the `defaultdict(list)` idiom). -/
def aappend {α β : Type} [DecidableEq α] (m : List (α × List β)) (k : α) (v : β) :
    List (α × List β) :=
  aset m k (((alookup m k).getD []) ++ [v])

/-! ## Identifier normalization (`build_connections`, lines 85-91) -/

/-- Python `stop_id.startswith('S')` for the single-character marker. -/
def startsWithS (s : String) : Bool :=
  match s.data with
  | [] => false
  | c :: _ => c = 'S'

/-- Python `stop_id.endswith(c)` for a single-character suffix. -/
def endsWithChar (s : String) (c : Char) : Bool :=
  s.data.getLast? = some c

/-- Python `stop_id[:-1]`. -/
def dropLastChar (s : String) : String :=
  ⟨s.data.dropLast⟩

/-- Normalization of a raw stop id as performed inside `build_connections`:
first strip a trailing direction suffix N or S, then drop the id when the
(stripped) id starts with S (Staten Island Railway). `none` = excluded. -/
def normalize_stop_id (stop_id : String) : Option String :=
  let stripped :=
    if endsWithChar stop_id 'N' || endsWithChar stop_id 'S' then dropLastChar stop_id
    else stop_id
  if startsWithS stripped then none else some stripped

/-! ## Data records -/

structure Station where
  id : String
  name : String
  lat : ℚ
  lon : ℚ
deriving DecidableEq

structure Connection where
  from_stop : String
  to_stop : String
  travel_time : ℚ
  route : String
deriving DecidableEq

/-- One row of `stop_times.txt` after time parsing (minutes since midnight). -/
structure StopTimeRow where
  trip_id : String
  stop_id : String
  stop_sequence : ℕ
  arrival_minutes : ℤ
deriving DecidableEq

/-- One row of `transfers.txt`.  The `min_transfer_time` field is `none` when
the key is absent, `some none` when present but not parseable as a number,
and `some (some q)` when it parses to the number `q`. -/
structure TransferRow where
  from_stop_id : String
  to_stop_id : String
  min_transfer_time : Option (Option ℚ)
deriving DecidableEq

/-! ## Edge extraction (`build_connections`, lines 104-125) -/

/-- Python `stops.sort(key=lambda x: x[0])` : a stable ascending sort on the
sequence number. -/
def sortStops (stops : List (ℕ × String × ℤ)) : List (ℕ × String × ℤ) :=
  List.insertionSort (fun a b => a.1 ≤ b.1) stops

/-- Consecutive pairs of a list. -/
def consecPairs {α : Type} : List α → List (α × α)
  | a :: b :: rest => (a, b) :: consecPairs (b :: rest)
  | _ => []

/-- The loop over consecutive sorted stops of one trip: emit an edge when the
time difference is strictly between 0 and 30 minutes. -/
def connectStops (route : String) : List (ℕ × String × ℤ) → List Connection
  | a :: b :: rest =>
    (let travel_time : ℤ := b.2.2 - a.2.2
     if 0 < travel_time ∧ travel_time < 30 then
       [⟨a.2.1, b.2.1, (travel_time : ℚ), route⟩]
     else []) ++ connectStops route (b :: rest)
  | _ => []

/-- Connections produced for a single trip: a trip with no route in
`trip_routes` is dropped entirely; otherwise its stops are sorted by
sequence number and consecutive pairs are turned into edges. -/
def tripConnections (trip_routes : List (String × String)) (trip_id : String)
    (stops : List (ℕ × String × ℤ)) : List Connection :=
  match alookup trip_routes trip_id with
  | none => []
  | some route => connectStops route (sortStops stops)

/-- Grouping of `stop_times.txt` rows by trip id (the `trip_stops` dict),
normalizing and filtering stop ids along the way. -/
def build_trip_stops (rows : List StopTimeRow) : List (String × List (ℕ × String × ℤ)) :=
  rows.foldl
    (fun m row =>
      match normalize_stop_id row.stop_id with
      | none => m
      | some sid => aappend m row.trip_id (row.stop_sequence, sid, row.arrival_minutes))
    []

def build_connections (trip_routes : List (String × String)) (rows : List StopTimeRow) :
    List Connection :=
  (build_trip_stops rows).foldl (fun acc ts => acc ++ tripConnections trip_routes ts.1 ts.2) []

/-! ## Edge aggregation (`average_connections`, lines 127-139) -/

def average_connections (connections : List Connection) : List ((String × String) × ℚ) :=
  let connection_times : List ((String × String) × List ℚ) :=
    connections.foldl
      (fun m conn => aappend m (conn.from_stop, conn.to_stop) conn.travel_time) []
  connection_times.map (fun kv => (kv.1, kv.2.sum / kv.2.length))

/-! ## Graph construction (`build_graph`, lines 169-178) -/

/-- Adjacency-list graph, embedding `Dict[str, List[Tuple[str, float]]]`. -/
abbrev Graph := List (String × List (String × ℚ))

def build_graph (averaged_connections : List ((String × String) × ℚ)) : Graph :=
  averaged_connections.foldl
    (fun g kv => aappend (aappend g kv.1.1 (kv.1.2, kv.2)) kv.1.2 (kv.1.1, kv.2)) []

/-! ## Transfers (`add_transfers`, lines 180-214) -/

/-- Python `float(row.get('min_transfer_time', 120)) / 60`: the default 120 is
used only when the key is absent; a present value that does not parse as a
number raises (modelled as `Except.error`). -/
def transferMinutes : Option (Option ℚ) → Except Unit ℚ
  | none => .ok (120 / 60)
  | some none => .error ()
  | some (some q) => .ok (q / 60)

/-- Python `if x not in graph: graph[x] = []`. -/
def ensureKey (g : Graph) (k : String) : Graph :=
  if (alookup g k).isNone then aset g k [] else g

/-- Processing of a single transfer record. -/
def addTransferStep (g : Graph) (r : TransferRow) : Except Unit Graph :=
  if startsWithS r.from_stop_id || startsWithS r.to_stop_id then .ok g
  else if r.from_stop_id = r.to_stop_id then .ok g
  else
    match transferMinutes r.min_transfer_time with
    | .error e => .error e
    | .ok transfer_time =>
      let g2 := ensureKey (ensureKey g r.from_stop_id) r.to_stop_id
      let g3 := aset g2 r.from_stop_id
        (((alookup g2 r.from_stop_id).getD []) ++ [(r.to_stop_id, transfer_time)])
      let g4 := aset g3 r.to_stop_id
        (((alookup g3 r.to_stop_id).getD []) ++ [(r.from_stop_id, transfer_time)])
      .ok g4

def processTransfers (g : Graph) : List TransferRow → Except Unit Graph
  | [] => .ok g
  | r :: rest =>
    match addTransferStep g r with
    | .error e => .error e
    | .ok g' => processTransfers g' rest

/-- The whole `add_transfers` function.  The `transfers.txt` input is `none`
when the file is missing (`FileNotFoundError`); in that case the graph is
returned unchanged and the boolean warning flag is set. -/
def add_transfers (g : Graph) (tf : Option (List TransferRow)) : Except Unit (Graph × Bool) :=
  match tf with
  | none => .ok (g, true)
  | some rows =>
    match processTransfers g rows with
    | .error e => .error e
    | .ok g' => .ok (g', false)

/-! ## Dijkstra (`dijkstra`, lines 141-167) -/

/-- State of the main loop: the `distances` dict, the heap contents, and the
`visited` set. -/
structure DState where
  dist : List (String × ℚ)
  pq : List (ℚ × String)
  visited : List String
deriving DecidableEq

/-- The tuple order used by `heapq` on `(distance, node)` pairs. -/
def pqLe (a b : ℚ × String) : Bool :=
  a.1 < b.1 || (a.1 = b.1 && a.2 < b.2)

/-- Remove a minimal element (with respect to the heap order) from the queue;
`heapq.heappop` returns exactly such an element. -/
def popMin : List (ℚ × String) → Option ((ℚ × String) × List (ℚ × String))
  | [] => none
  | x :: xs =>
    match popMin xs with
    | none => some (x, [])
    | some (m, rest) => if pqLe x m then some (x, xs) else some (m, x :: rest)

/-- Relaxation of one outgoing edge `e` from the node just visited, whose
popped distance is `d` (lines 160-165). -/
def relaxOne (max_time d : ℚ) (st : DState) (e : String × ℚ) : DState :=
  let distance := d + e.2
  if distance ≤ max_time then
    match alookup st.dist e.1 with
    | none => ⟨aset st.dist e.1 distance, st.pq ++ [(distance, e.1)], st.visited⟩
    | some old =>
      if distance < old then ⟨aset st.dist e.1 distance, st.pq ++ [(distance, e.1)], st.visited⟩
      else st
  else st

/-- The body run after marking `v` visited: skip when `v` has no adjacency
entry, otherwise relax all its outgoing edges. -/
def stepVisit (g : Graph) (max_time d : ℚ) (v : String) (st : DState) : DState :=
  match alookup g v with
  | none => st
  | some nbrs => nbrs.foldl (relaxOne max_time d) st

/-- The `while pq:` loop, with explicit fuel (each iteration pops exactly one
queue entry). -/
def dloop (g : Graph) (max_time : ℚ) : ℕ → DState → DState
  | 0, st => st
  | n + 1, st =>
    match popMin st.pq with
    | none => st
    | some ((d, v), rest) =>
      if v ∈ st.visited then dloop g max_time n ⟨st.dist, rest, st.visited⟩
      else if max_time < d then dloop g max_time n ⟨st.dist, rest, st.visited⟩
      else dloop g max_time n (stepVisit g max_time d v ⟨st.dist, rest, v :: st.visited⟩)

/-- Fuel sufficient to drain the queue: one initial push plus at most one push
per adjacency entry (each node is visited at most once). -/
def dijkstraFuel (g : Graph) : ℕ :=
  1 + (g.map (fun e => e.2.length)).sum

def dijkstra (g : Graph) (start : String) (max_time : ℚ) : List (String × ℚ) :=
  (dloop g max_time (dijkstraFuel g) ⟨[(start, 0)], [((0 : ℚ), start)], []⟩).dist

/-! ## Matrix assembly (`main`, lines 242-263) -/

/-- The `travel_times` accumulation loop of `main`: one Dijkstra row per
station key, horizon 120 minutes. -/
def travelTable (stations : List (String × Station)) (g : Graph) :
    List (String × List (String × ℚ)) :=
  stations.map (fun p => (p.1, dijkstra g p.1 120))

/-- The serialized output: station metadata plus the travel-time table. -/
structure PipelineOutput where
  stations : List (String × Station)
  travel_times : List (String × List (String × ℚ))

def mainOutput (stations : List (String × Station)) (g : Graph) : PipelineOutput :=
  ⟨stations, travelTable stations g⟩

/-- The tail of `main` starting from the extracted connections: average,
build the graph, add transfers (which can fail, or warn when the transfers
file is missing), then assemble the table. -/
def runPipeline (stations : List (String × Station)) (connections : List Connection)
    (tf : Option (List TransferRow)) : Except Unit (PipelineOutput × Bool) :=
  let g := build_graph (average_connections connections)
  match add_transfers g tf with
  | .error e => .error e
  | .ok (g', warn) => .ok (mainOutput stations g', warn)

/-! ## Specification-side definitions -/

/-- Paths in the adjacency graph: `Reaches g s v d` holds when there is a
path from `s` to `v` of total weight `d`. -/
inductive Reaches (g : Graph) (s : String) : String → ℚ → Prop where
  | refl : Reaches g s s 0
  | step {u v : String} {w d : ℚ} {l : List (String × ℚ)} :
      Reaches g s u d → alookup g u = some l → (v, w) ∈ l → Reaches g s v (d + w)

/-- Every adjacency entry `(b, w)` of `a` has a mirror entry `(a, w)` of `b`. -/
def SymGraph (g : Graph) : Prop :=
  ∀ a : String, ∀ e ∈ (alookup g a).getD ([] : List (String × ℚ)),
    (a, e.2) ∈ (alookup g e.1).getD ([] : List (String × ℚ))

/-- All edge weights of the graph are nonnegative. -/
def GraphNonneg (g : Graph) : Prop :=
  ∀ u : String, ∀ e ∈ (alookup g u).getD ([] : List (String × ℚ)), 0 ≤ e.2

/-- All edge weights of the graph are strictly positive. -/
def GraphPos (g : Graph) : Prop :=
  ∀ u : String, ∀ e ∈ (alookup g u).getD ([] : List (String × ℚ)), 0 < e.2

/-- Queue entries whose node is not yet visited, counted with the adjacency
budget still available; used for the fuel bound. -/
def remCap (g : Graph) (visited : List String) : ℕ :=
  ((g.filter (fun e => decide (e.1 ∉ visited))).map (fun e => e.2.length)).sum

/-- The loop invariant of the Dijkstra embedding. -/
structure Inv (g : Graph) (s : String) (hz : ℚ) (st : DState) : Prop where
  sound : ∀ v d, alookup st.dist v = some d → Reaches g s v d ∧ 0 ≤ d ∧ d ≤ hz
  src : alookup st.dist s = some 0
  pq_dist : ∀ e ∈ st.pq, ∃ d', alookup st.dist e.2 = some d' ∧ d' ≤ e.1
  queued : ∀ v d', v ∉ st.visited → alookup st.dist v = some d' → (d', v) ∈ st.pq
  settled : ∀ u ∈ st.visited, ∃ d, alookup st.dist u = some d ∧
      (∀ L, Reaches g s u L → d ≤ L) ∧
      (∀ e ∈ (alookup g u).getD ([] : List (String × ℚ)),
        d + e.2 ≤ hz → ∃ d2, alookup st.dist e.1 = some d2 ∧ d2 ≤ d + e.2)

/-- The invariant holding while the edges of the newly visited node `v`
(popped at distance `d`) are being relaxed; `processed` are the edges already
relaxed. -/
structure MidInv (g : Graph) (s : String) (hz : ℚ) (v : String) (d : ℚ)
    (processed : List (String × ℚ)) (st : DState) : Prop where
  sound : ∀ x dx, alookup st.dist x = some dx → Reaches g s x dx ∧ 0 ≤ dx ∧ dx ≤ hz
  src : alookup st.dist s = some 0
  pq_dist : ∀ e ∈ st.pq, ∃ d', alookup st.dist e.2 = some d' ∧ d' ≤ e.1
  queued : ∀ x dx, x ∉ st.visited → alookup st.dist x = some dx → (dx, x) ∈ st.pq
  settled_old : ∀ u ∈ st.visited, u ≠ v → ∃ du, alookup st.dist u = some du ∧
      (∀ L, Reaches g s u L → du ≤ L) ∧
      (∀ e ∈ (alookup g u).getD ([] : List (String × ℚ)),
        du + e.2 ≤ hz → ∃ d2, alookup st.dist e.1 = some d2 ∧ d2 ≤ du + e.2)
  v_mem : v ∈ st.visited
  v_dist : alookup st.dist v = some d
  v_least : ∀ L, Reaches g s v L → d ≤ L
  v_processed : ∀ e ∈ processed, d + e.2 ≤ hz →
      ∃ d2, alookup st.dist e.1 = some d2 ∧ d2 ≤ d + e.2

theorem alookup_aset_self {α β : Type} [DecidableEq α] (l : List (α × β)) (a : α) (b : β) :
    alookup (aset l a b) a = some b := by
  induction l with
  | nil => simp [aset, alookup]
  | cons p l ih =>
    obtain ⟨k, v⟩ := p
    by_cases h : k = a
    · simp [aset, alookup, h]
    · simp [aset, alookup, h, ih]

theorem alookup_aset_ne {α β : Type} [DecidableEq α] (l : List (α × β)) (a a' : α) (b : β)
    (h : a' ≠ a) : alookup (aset l a b) a' = alookup l a' := by
  have hne : a ≠ a' := fun hh => h hh.symm
  induction l with
  | nil => simp [aset, alookup, hne]
  | cons p l ih =>
    obtain ⟨k, v⟩ := p
    by_cases hk : k = a
    · subst hk
      simp [aset, alookup, hne]
    · by_cases hk' : k = a'
      · simp [aset, alookup, hk, hk', h]
      · simp [aset, alookup, hk, hk', ih]

theorem alookup_aappend_self {α β : Type} [DecidableEq α] (m : List (α × List β)) (k : α)
    (v : β) : alookup (aappend m k v) k = some (((alookup m k).getD []) ++ [v]) := by
  simp [aappend, alookup_aset_self]

theorem alookup_aappend_ne {α β : Type} [DecidableEq α] (m : List (α × List β)) (k k' : α)
    (v : β) (h : k' ≠ k) : alookup (aappend m k v) k' = alookup m k' := by
  simp [aappend, alookup_aset_ne _ _ _ _ h]

theorem getD_aappend_self {α β : Type} [DecidableEq α] (m : List (α × List β)) (k : α)
    (v : β) :
    (alookup (aappend m k v) k).getD [] = ((alookup m k).getD []) ++ [v] := by
  simp [alookup_aappend_self]

theorem getD_aappend_ne {α β : Type} [DecidableEq α] (m : List (α × List β)) (k k' : α)
    (v : β) (h : k' ≠ k) :
    (alookup (aappend m k v) k').getD [] = (alookup m k').getD [] := by
  simp [alookup_aappend_ne _ _ _ _ h]

/-- Looking a key up in a map whose values are computed from the keys. -/
theorem alookup_map_of_key {α β γ : Type} [DecidableEq α] (l : List (α × β)) (f : α → γ)
    (k : α) :
    alookup (l.map (fun p => (p.1, f p.1))) k = (alookup l k).map (fun _ => f k) := by
  induction l with
  | nil => simp [alookup]
  | cons p l ih =>
    by_cases h : p.1 = k
    · subst h
      simp [alookup]
    · simp [alookup, h, ih]

/-- Looking a key up after transforming every value. -/
theorem alookup_map_value {α β γ : Type} [DecidableEq α] (l : List (α × β)) (f : β → γ)
    (k : α) :
    alookup (l.map (fun p => (p.1, f p.2))) k = (alookup l k).map f := by
  induction l with
  | nil => simp [alookup]
  | cons p l ih =>
    by_cases h : p.1 = k
    · subst h
      simp [alookup]
    · simp [alookup, h, ih]

/-! ## Lemmas on the identifier normalizer -/

/-- Dropping the last character never creates a leading S. -/
theorem startsWithS_dropLastChar (s : String) (h : startsWithS (dropLastChar s) = true) :
    startsWithS s = true := by
  obtain ⟨l⟩ := s
  match l with
  | [] => simp [dropLastChar, startsWithS, List.dropLast] at h
  | [c] => simp [dropLastChar, startsWithS, List.dropLast] at h
  | c :: d :: t => simpa [dropLastChar, startsWithS, List.dropLast] using h

/-- Dropping the last character of a string of length at least 2 keeps the
first character. -/
theorem startsWithS_dropLastChar_of_two_le (s : String) (h2 : 2 ≤ s.length) :
    startsWithS (dropLastChar s) = startsWithS s := by
  obtain ⟨l⟩ := s
  match l with
  | [] => simp [String.length] at h2
  | [c] => simp [String.length] at h2
  | c :: d :: t => simp [dropLastChar, startsWithS, List.dropLast]

/-! ## Lemmas on the edge extractor -/

/-- Characterization of the edges emitted for the consecutive pairs of a
stop list: an edge appears exactly for the pairs whose time difference lies
strictly between 0 and 30. -/
theorem mem_connectStops (route : String) (l : List (ℕ × String × ℤ)) (c : Connection) :
    c ∈ connectStops route l ↔
      ∃ p ∈ consecPairs l, (0 < p.2.2.2 - p.1.2.2 ∧ p.2.2.2 - p.1.2.2 < 30) ∧
        c = ⟨p.1.2.1, p.2.2.1, ((p.2.2.2 - p.1.2.2 : ℤ) : ℚ), route⟩ := by
  induction l with
  | nil => simp [connectStops, consecPairs]
  | cons a l ih =>
    match l with
    | [] => simp [connectStops, consecPairs]
    | b :: rest =>
      simp only [connectStops, consecPairs, List.mem_append, List.mem_cons, ih]
      by_cases hc : 0 < b.2.2 - a.2.2 ∧ b.2.2 - a.2.2 < 30
      · rw [if_pos hc]
        constructor
        · rintro (hmem | ⟨p, hp, hcond, rfl⟩)
          · rw [List.mem_singleton] at hmem
            exact ⟨(a, b), Or.inl rfl, hc, hmem⟩
          · exact ⟨p, Or.inr hp, hcond, rfl⟩
        · rintro ⟨p, (rfl | hp), hcond, rfl⟩
          · exact Or.inl (List.mem_singleton.mpr rfl)
          · exact Or.inr ⟨p, hp, hcond, rfl⟩
      · rw [if_neg hc]
        constructor
        · rintro (hmem | ⟨p, hp, hcond, rfl⟩)
          · simp at hmem
          · exact ⟨p, Or.inr hp, hcond, rfl⟩
        · rintro ⟨p, (rfl | hp), hcond, rfl⟩
          · exact absurd hcond hc
          · exact Or.inr ⟨p, hp, hcond, rfl⟩

/-! ## Lemmas on the edge aggregator -/

/-- Effect of the grouping fold of `average_connections` on one key. -/
theorem alookup_group_fold (conns : List Connection) (m : List ((String × String) × List ℚ))
    (k : String × String) :
    alookup (conns.foldl
        (fun m conn => aappend m (conn.from_stop, conn.to_stop) conn.travel_time) m) k =
      (let ts := (conns.filter
          (fun c => decide ((c.from_stop, c.to_stop) = k))).map Connection.travel_time
       if alookup m k = none ∧ ts = [] then none
       else some (((alookup m k).getD []) ++ ts)) := by
  induction conns generalizing m with
  | nil =>
    cases h : alookup m k with
    | none => simp [h]
    | some l => simp [h]
  | cons c cs ih =>
    by_cases hk : (c.from_stop, c.to_stop) = k
    · have step := alookup_aappend_self m (c.from_stop, c.to_stop) c.travel_time
      rw [hk] at step
      simp only [List.foldl_cons, ih, step, List.filter_cons, hk, decide_True, List.map_cons]
      simp [step, List.append_assoc]
    · simp only [List.foldl_cons, ih, alookup_aappend_ne _ _ _ _ (fun h => hk h.symm),
        List.filter_cons]
      simp [hk]

/-- Value-level characterization of `average_connections`. -/
theorem alookup_average_connections (conns : List Connection) (k : String × String) :
    alookup (average_connections conns) k =
      (let ts := (conns.filter
          (fun c => decide ((c.from_stop, c.to_stop) = k))).map Connection.travel_time
       if ts = [] then none else some (ts.sum / ts.length)) := by
  simp only [average_connections]
  rw [alookup_map_value (conns.foldl
      (fun m conn => aappend m (conn.from_stop, conn.to_stop) conn.travel_time) [])
    (fun ts : List ℚ => ts.sum / (ts.length : ℚ)) k]
  rw [alookup_group_fold]
  cases h : (conns.filter
      (fun c => decide ((c.from_stop, c.to_stop) = k))).map Connection.travel_time with
  | nil => simp [alookup, h]
  | cons t ts => simp [alookup, h]

/-! ## Membership through `aappend` and `ensureKey` -/

theorem mem_getD_aappend {α β : Type} [DecidableEq α] (m : List (α × List β)) (k x : α)
    (v e : β) :
    e ∈ (alookup (aappend m k v) x).getD [] ↔
      e ∈ (alookup m x).getD [] ∨ (x = k ∧ e = v) := by
  by_cases h : x = k
  · subst h
    rw [getD_aappend_self]
    simp
  · rw [getD_aappend_ne _ _ _ _ h]
    simp [h]

theorem getD_ensureKey (g : Graph) (k x : String) :
    (alookup (ensureKey g k) x).getD [] = (alookup g x).getD [] := by
  unfold ensureKey
  by_cases habs : (alookup g k).isNone
  · rw [if_pos habs]
    by_cases hx : x = k
    · subst hx
      rw [alookup_aset_self, Option.isNone_iff_eq_none.mp habs]
      rfl
    · rw [alookup_aset_ne _ _ _ _ hx]
  · rw [if_neg habs]

theorem alookup_ensureKey_ne (g : Graph) (k x : String) (h : x ≠ k) :
    alookup (ensureKey g k) x = alookup g x := by
  unfold ensureKey
  by_cases habs : (alookup g k).isNone
  · rw [if_pos habs, alookup_aset_ne _ _ _ _ h]
  · rw [if_neg habs]

/-! ## Symmetry of the constructed graph -/

theorem sym_empty : SymGraph ([] : Graph) := by
  intro x e he
  simp [alookup] at he

theorem sym_ensureKey (g : Graph) (k : String) (hs : SymGraph g) :
    SymGraph (ensureKey g k) := by
  intro x e he
  rw [getD_ensureKey] at he
  rw [getD_ensureKey]
  exact hs x e he

/-- Inserting an edge in both directions with the same weight preserves the
mirror-entry property. -/
theorem sym_insert_pair (g : Graph) (a b : String) (w : ℚ) (hs : SymGraph g) :
    SymGraph (aappend (aappend g a (b, w)) b (a, w)) := by
  intro x e he
  rw [mem_getD_aappend] at he
  rw [mem_getD_aappend, mem_getD_aappend]
  rcases he with he | ⟨hx, he⟩
  · rw [mem_getD_aappend] at he
    rcases he with he | ⟨hx, he⟩
    · exact Or.inl (Or.inl (hs x e he))
    · subst hx
      subst he
      exact Or.inr ⟨rfl, rfl⟩
  · subst hx
    subst he
    exact Or.inl (Or.inr ⟨rfl, rfl⟩)

theorem sym_build_graph_fold (avg : List ((String × String) × ℚ)) (g : Graph)
    (hs : SymGraph g) :
    SymGraph (avg.foldl
      (fun g kv => aappend (aappend g kv.1.1 (kv.1.2, kv.2)) kv.1.2 (kv.1.1, kv.2)) g) := by
  induction avg generalizing g with
  | nil => exact hs
  | cons kv rest ih => exact ih _ (sym_insert_pair _ _ _ _ hs)

theorem sym_build_graph (avg : List ((String × String) × ℚ)) : SymGraph (build_graph avg) :=
  sym_build_graph_fold avg [] sym_empty

/-! ## Characterization of one transfer-record step -/

theorem addTransferStep_skip_excluded (g : Graph) (r : TransferRow)
    (h : startsWithS r.from_stop_id = true ∨ startsWithS r.to_stop_id = true) :
    addTransferStep g r = .ok g := by
  unfold addTransferStep
  rcases h with h | h <;> rw [h] <;> simp

theorem addTransferStep_skip_self (g : Graph) (r : TransferRow)
    (h : r.from_stop_id = r.to_stop_id) : addTransferStep g r = .ok g := by
  unfold addTransferStep
  by_cases h1 : (startsWithS r.from_stop_id || startsWithS r.to_stop_id) = true
  · rw [if_pos h1]
  · rw [if_neg h1, if_pos h]

theorem addTransferStep_eq_ok (g : Graph) (r : TransferRow)
    (h1 : startsWithS r.from_stop_id = false) (h2 : startsWithS r.to_stop_id = false)
    (h3 : r.from_stop_id ≠ r.to_stop_id) (t : ℚ)
    (ht : transferMinutes r.min_transfer_time = .ok t) :
    addTransferStep g r = .ok
      (aappend (aappend (ensureKey (ensureKey g r.from_stop_id) r.to_stop_id)
        r.from_stop_id (r.to_stop_id, t)) r.to_stop_id (r.from_stop_id, t)) := by
  unfold addTransferStep
  rw [h1, h2]
  simp only [Bool.or_self, Bool.false_eq_true, if_false, if_neg h3, ht]
  rfl

theorem addTransferStep_error (g : Graph) (r : TransferRow)
    (h1 : startsWithS r.from_stop_id = false) (h2 : startsWithS r.to_stop_id = false)
    (h3 : r.from_stop_id ≠ r.to_stop_id)
    (ht : transferMinutes r.min_transfer_time = .error ()) :
    addTransferStep g r = .error () := by
  unfold addTransferStep
  rw [h1, h2]
  simp only [Bool.or_self, Bool.false_eq_true, if_false, if_neg h3, ht]

theorem addTransferStep_ok_lookup (g : Graph) (r : TransferRow)
    (h1 : startsWithS r.from_stop_id = false) (h2 : startsWithS r.to_stop_id = false)
    (h3 : r.from_stop_id ≠ r.to_stop_id) (t : ℚ)
    (ht : transferMinutes r.min_transfer_time = .ok t) :
    ∃ g', addTransferStep g r = .ok g' ∧
      alookup g' r.from_stop_id =
        some (((alookup g r.from_stop_id).getD []) ++ [(r.to_stop_id, t)]) ∧
      alookup g' r.to_stop_id =
        some (((alookup g r.to_stop_id).getD []) ++ [(r.from_stop_id, t)]) ∧
      ∀ k, k ≠ r.from_stop_id → k ≠ r.to_stop_id → alookup g' k = alookup g k := by
  refine ⟨_, addTransferStep_eq_ok g r h1 h2 h3 t ht, ?_, ?_, ?_⟩
  · rw [alookup_aappend_ne _ _ _ _ h3, alookup_aappend_self]
    rw [getD_ensureKey, getD_ensureKey]
  · rw [alookup_aappend_self, getD_aappend_ne _ _ _ _ (fun h => h3 h.symm)]
    rw [getD_ensureKey, getD_ensureKey]
  · intro k hkf hkt
    rw [alookup_aappend_ne _ _ _ _ hkt, alookup_aappend_ne _ _ _ _ hkf]
    rw [alookup_ensureKey_ne _ _ _ hkt, alookup_ensureKey_ne _ _ _ hkf]

theorem sym_addTransferStep (g g' : Graph) (r : TransferRow) (hs : SymGraph g)
    (h : addTransferStep g r = .ok g') : SymGraph g' := by
  cases hf : startsWithS r.from_stop_id with
  | true =>
    rw [addTransferStep_skip_excluded g r (Or.inl hf)] at h
    cases h
    exact hs
  | false =>
    cases htb : startsWithS r.to_stop_id with
    | true =>
      rw [addTransferStep_skip_excluded g r (Or.inr htb)] at h
      cases h
      exact hs
    | false =>
      by_cases h2 : r.from_stop_id = r.to_stop_id
      · rw [addTransferStep_skip_self g r h2] at h
        cases h
        exact hs
      · cases ht : transferMinutes r.min_transfer_time with
        | error e =>
          cases e
          rw [addTransferStep_error g r hf htb h2 ht] at h
          cases h
        | ok t =>
          rw [addTransferStep_eq_ok g r hf htb h2 t ht] at h
          cases h
          exact sym_insert_pair _ _ _ _ (sym_ensureKey _ _ (sym_ensureKey _ _ hs))

theorem sym_processTransfers (rows : List TransferRow) :
    ∀ g g', SymGraph g → processTransfers g rows = .ok g' → SymGraph g' := by
  induction rows with
  | nil =>
    intro g g' hs h
    cases h
    exact hs
  | cons r rest ih =>
    intro g g' hs h
    unfold processTransfers at h
    cases hstep : addTransferStep g r with
    | error e =>
      rw [hstep] at h
      cases h
    | ok gm =>
      rw [hstep] at h
      exact ih gm g' (sym_addTransferStep g gm r hs hstep) h

/-! ## Key sets and weight bounds of the constructed graph -/

theorem alookup_eq_none_iff {α β : Type} [DecidableEq α] (l : List (α × β)) (k : α) :
    alookup l k = none ↔ k ∉ l.map Prod.fst := by
  induction l with
  | nil => simp [alookup]
  | cons p l ih =>
    obtain ⟨a, b⟩ := p
    by_cases h : a = k
    · subst h
      simp [alookup]
    · simp only [alookup, if_neg h, List.map_cons, List.mem_cons, not_or, ih]
      exact ⟨fun hk => ⟨fun he => h he.symm, hk⟩, fun hk => hk.2⟩

theorem keys_aset {α β : Type} [DecidableEq α] (l : List (α × β)) (k : α) (v : β) :
    (aset l k v).map Prod.fst =
      if (alookup l k).isNone then l.map Prod.fst ++ [k] else l.map Prod.fst := by
  induction l with
  | nil => simp [aset, alookup]
  | cons p l ih =>
    obtain ⟨a, b⟩ := p
    by_cases h : a = k
    · subst h
      simp [aset, alookup]
    · simp only [aset, if_neg h, List.map_cons, alookup, ih]
      by_cases hn : (alookup l k).isNone
      · simp [hn]
      · simp [hn]

theorem nodup_keys_aset {α β : Type} [DecidableEq α] (l : List (α × β)) (k : α) (v : β)
    (h : (l.map Prod.fst).Nodup) : ((aset l k v).map Prod.fst).Nodup := by
  rw [keys_aset]
  by_cases hn : (alookup l k).isNone
  · rw [if_pos hn]
    simp only [List.nodup_append, List.nodup_singleton, true_and]
    refine ⟨h, ?_⟩
    intro x hx hk
    rw [List.mem_singleton] at hk
    subst hk
    exact (alookup_eq_none_iff l x).mp (Option.isNone_iff_eq_none.mp hn) hx
  · rw [if_neg hn]
    exact h

theorem nodup_keys_aappend {α β : Type} [DecidableEq α] (m : List (α × List β)) (k : α)
    (v : β) (h : (m.map Prod.fst).Nodup) : ((aappend m k v).map Prod.fst).Nodup :=
  nodup_keys_aset _ _ _ h

theorem build_graph_keys_nodup (avg : List ((String × String) × ℚ)) :
    ((build_graph avg).map Prod.fst).Nodup := by
  have main : ∀ (l : List ((String × String) × ℚ)) (g : Graph),
      (g.map Prod.fst).Nodup →
      ((l.foldl (fun g kv => aappend (aappend g kv.1.1 (kv.1.2, kv.2)) kv.1.2 (kv.1.1, kv.2))
        g).map Prod.fst).Nodup := by
    intro l
    induction l with
    | nil => intro g hg; exact hg
    | cons kv rest ih =>
      intro g hg
      exact ih _ (nodup_keys_aappend _ _ _ (nodup_keys_aappend _ _ _ hg))
  exact main avg [] (by simp)

theorem nonneg_aappend (g : Graph) (k x : String) (w : ℚ) (hg : GraphNonneg g)
    (hw : 0 ≤ w) : GraphNonneg (aappend g k (x, w)) := by
  intro u e he
  rw [mem_getD_aappend] at he
  rcases he with he | ⟨_, he⟩
  · exact hg u e he
  · subst he
    exact hw

theorem build_graph_nonneg (avg : List ((String × String) × ℚ))
    (hw : ∀ e ∈ avg, 0 ≤ e.2) : GraphNonneg (build_graph avg) := by
  have main : ∀ (l : List ((String × String) × ℚ)) (g : Graph),
      (∀ e ∈ l, 0 ≤ e.2) → GraphNonneg g →
      GraphNonneg (l.foldl
        (fun g kv => aappend (aappend g kv.1.1 (kv.1.2, kv.2)) kv.1.2 (kv.1.1, kv.2)) g) := by
    intro l
    induction l with
    | nil => intro g _ hg; exact hg
    | cons kv rest ih =>
      intro g hl hg
      refine ih _ (fun e he => hl e (List.mem_cons_of_mem _ he)) ?_
      have hkv : 0 ≤ kv.2 := hl kv (List.mem_cons_self _ _)
      exact nonneg_aappend _ _ _ _ (nonneg_aappend _ _ _ _ hg hkv) hkv
  refine main avg [] hw ?_
  intro u e he
  simp [alookup] at he

/-! ## Priority-queue lemmas -/

theorem pqLe_weight_le (a b : ℚ × String) (h : pqLe a b = true) : a.1 ≤ b.1 := by
  simp only [pqLe, Bool.or_eq_true, Bool.and_eq_true, decide_eq_true_eq] at h
  rcases h with h | ⟨h, _⟩
  · exact le_of_lt h
  · exact le_of_eq h

theorem pqLe_not_weight_le (a b : ℚ × String) (h : ¬ pqLe a b = true) : b.1 ≤ a.1 := by
  simp only [pqLe, Bool.or_eq_true, Bool.and_eq_true, decide_eq_true_eq, not_or,
    not_and] at h
  exact le_of_not_lt h.1

theorem popMin_eq_none_iff (l : List (ℚ × String)) : popMin l = none ↔ l = [] := by
  cases l with
  | nil => simp [popMin]
  | cons x xs =>
    simp only [popMin]
    cases h : popMin xs with
    | none => simp
    | some p =>
      obtain ⟨m, rest⟩ := p
      by_cases hle : pqLe x m <;> simp [hle]

theorem popMin_perm (l : List (ℚ × String)) (m : ℚ × String) (rest : List (ℚ × String))
    (h : popMin l = some (m, rest)) : l.Perm (m :: rest) := by
  induction l generalizing m rest with
  | nil => simp [popMin] at h
  | cons x xs ih =>
    simp only [popMin] at h
    cases hx : popMin xs with
    | none =>
      rw [hx] at h
      simp only [Option.some.injEq, Prod.mk.injEq] at h
      obtain ⟨rfl, rfl⟩ := h
      rw [(popMin_eq_none_iff xs).mp hx]
    | some p =>
      obtain ⟨m0, rest0⟩ := p
      rw [hx] at h
      change (if pqLe x m0 = true then some (x, xs) else some (m0, x :: rest0)) =
        some (m, rest) at h
      by_cases hle : pqLe x m0
      · rw [if_pos hle] at h
        simp only [Option.some.injEq, Prod.mk.injEq] at h
        obtain ⟨rfl, rfl⟩ := h
        exact List.Perm.refl _
      · rw [if_neg hle] at h
        simp only [Option.some.injEq, Prod.mk.injEq] at h
        obtain ⟨rfl, rfl⟩ := h
        exact ((ih m0 rest0 hx).cons x).trans (List.Perm.swap m0 x rest0)

theorem popMin_min (l : List (ℚ × String)) (m : ℚ × String) (rest : List (ℚ × String))
    (h : popMin l = some (m, rest)) : ∀ e ∈ l, m.1 ≤ e.1 := by
  induction l generalizing m rest with
  | nil => simp [popMin] at h
  | cons x xs ih =>
    simp only [popMin] at h
    cases hx : popMin xs with
    | none =>
      rw [hx] at h
      simp only [Option.some.injEq, Prod.mk.injEq] at h
      obtain ⟨rfl, rfl⟩ := h
      intro e he
      rw [(popMin_eq_none_iff xs).mp hx] at he
      rw [List.mem_singleton] at he
      subst he
      exact le_refl _
    | some p =>
      obtain ⟨m0, rest0⟩ := p
      rw [hx] at h
      change (if pqLe x m0 = true then some (x, xs) else some (m0, x :: rest0)) =
        some (m, rest) at h
      by_cases hle : pqLe x m0
      · rw [if_pos hle] at h
        simp only [Option.some.injEq, Prod.mk.injEq] at h
        obtain ⟨rfl, rfl⟩ := h
        intro e he
        rcases List.mem_cons.mp he with rfl | he
        · exact le_refl _
        · exact le_trans (pqLe_weight_le _ _ hle) (ih m0 rest0 hx e he)
      · rw [if_neg hle] at h
        simp only [Option.some.injEq, Prod.mk.injEq] at h
        obtain ⟨rfl, rfl⟩ := h
        intro e he
        rcases List.mem_cons.mp he with rfl | he
        · exact pqLe_not_weight_le _ _ hle
        · exact ih m0 rest0 hx e he

theorem popMin_mem (l : List (ℚ × String)) (m : ℚ × String) (rest : List (ℚ × String))
    (h : popMin l = some (m, rest)) : m ∈ l :=
  (popMin_perm l m rest h).symm.subset (List.mem_cons_self _ _)

theorem popMin_rest_subset (l : List (ℚ × String)) (m : ℚ × String)
    (rest : List (ℚ × String)) (h : popMin l = some (m, rest)) : ∀ e ∈ rest, e ∈ l :=
  fun _ he => (popMin_perm l m rest h).symm.subset (List.mem_cons_of_mem _ he)

theorem popMin_length (l : List (ℚ × String)) (m : ℚ × String) (rest : List (ℚ × String))
    (h : popMin l = some (m, rest)) : l.length = rest.length + 1 := by
  have := (popMin_perm l m rest h).length_eq
  simpa using this

/-! ## Path lemmas -/

theorem reaches_single (g : Graph) (u v : String) (w : ℚ) (l : List (String × ℚ))
    (hl : alookup g u = some l) (hm : (v, w) ∈ l) : Reaches g u v w := by
  have h := Reaches.step (Reaches.refl) hl hm
  rwa [zero_add] at h

theorem reaches_trans (g : Graph) (a b c : String) (d1 d2 : ℚ)
    (h1 : Reaches g a b d1) (h2 : Reaches g b c d2) : Reaches g a c (d1 + d2) := by
  induction h2 with
  | refl => rwa [add_zero]
  | step hr hl hm ih =>
    rw [← add_assoc]
    exact Reaches.step ih hl hm

theorem reaches_symm (g : Graph) (hs : SymGraph g) (s v : String) (d : ℚ)
    (h : Reaches g s v d) : Reaches g v s d := by
  induction h with
  | refl => exact Reaches.refl
  | @step u v' w d' l hr hl hm ih =>
    have hmem : (u, w) ∈ (alookup g v').getD ([] : List (String × ℚ)) := by
      refine hs u (v', w) ?_
      rw [hl]
      exact hm
    cases hv : alookup g v' with
    | none =>
      rw [hv] at hmem
      simp at hmem
    | some l2 =>
      rw [hv] at hmem
      simp only [Option.getD_some] at hmem
      have hvu : Reaches g v' u w := reaches_single g v' u w l2 hv hmem
      have := reaches_trans g v' u s w d' hvu ih
      rwa [add_comm] at this

/-! ## Relaxation preserves the mid-loop invariant -/

theorem midinv_push (g : Graph) (s : String) (hz d : ℚ) (v : String)
    (nbrs : List (String × ℚ)) (hnb : alookup g v = some nbrs) (hw : GraphNonneg g)
    (e : String × ℚ) (he : e ∈ nbrs) (processed : List (String × ℚ)) (st : DState)
    (hm : MidInv g s hz v d processed st) (hdd : d + e.2 ≤ hz)
    (himp : ∀ old, alookup st.dist e.1 = some old → d + e.2 < old) :
    MidInv g s hz v d (processed ++ [e])
      ⟨aset st.dist e.1 (d + e.2), st.pq ++ [(d + e.2, e.1)], st.visited⟩ := by
  have hvreach : Reaches g s v d := (hm.sound v d hm.v_dist).1
  have hv0 : 0 ≤ d := (hm.sound v d hm.v_dist).2.1
  have hew : 0 ≤ e.2 := by
    refine hw v e ?_
    rw [hnb]
    exact he
  have h0dd : 0 ≤ d + e.2 := add_nonneg hv0 hew
  have hreach : Reaches g s e.1 (d + e.2) := Reaches.step hvreach hnb he
  have hns : e.1 ≠ s := by
    intro hes
    rw [hes] at himp
    have := himp 0 hm.src
    linarith
  have hnvis : e.1 ∉ st.visited := by
    intro hvis
    by_cases hev : e.1 = v
    · rw [hev] at himp
      have := himp d hm.v_dist
      linarith
    · obtain ⟨du, hdu, hle, _⟩ := hm.settled_old e.1 hvis hev
      have h1 := himp du hdu
      have h2 := hle (d + e.2) hreach
      linarith
  have hpres : ∀ x d2 B, alookup st.dist x = some d2 → d2 ≤ B →
      ∃ d2', alookup (aset st.dist e.1 (d + e.2)) x = some d2' ∧ d2' ≤ B := by
    intro x d2 B hx hB
    by_cases hxe : x = e.1
    · subst hxe
      exact ⟨d + e.2, alookup_aset_self _ _ _,
        le_trans (le_of_lt (himp d2 hx)) hB⟩
    · refine ⟨d2, ?_, hB⟩
      rw [alookup_aset_ne _ _ _ _ hxe]
      exact hx
  refine ⟨?_, ?_, ?_, ?_, ?_, hm.v_mem, ?_, hm.v_least, ?_⟩
  · intro x dx hx
    by_cases hxe : x = e.1
    · subst hxe
      rw [alookup_aset_self] at hx
      injection hx with hinj
      subst hinj
      exact ⟨hreach, h0dd, hdd⟩
    · rw [alookup_aset_ne _ _ _ _ hxe] at hx
      exact hm.sound x dx hx
  · rw [alookup_aset_ne _ _ _ _ (fun h => hns h.symm)]
    exact hm.src
  · intro en hen
    rcases List.mem_append.mp hen with hen | hen
    · obtain ⟨d', hd', hle⟩ := hm.pq_dist en hen
      exact hpres en.2 d' en.1 hd' hle
    · rw [List.mem_singleton] at hen
      subst hen
      exact ⟨d + e.2, alookup_aset_self _ _ _, le_refl _⟩
  · intro x dx hxvis hx
    by_cases hxe : x = e.1
    · subst hxe
      rw [alookup_aset_self] at hx
      injection hx with hinj
      subst hinj
      exact List.mem_append.mpr (Or.inr (List.mem_singleton.mpr rfl))
    · rw [alookup_aset_ne _ _ _ _ hxe] at hx
      exact List.mem_append.mpr (Or.inl (hm.queued x dx hxvis hx))
  · intro u hu hune
    have hue : u ≠ e.1 := fun h => hnvis (h ▸ hu)
    obtain ⟨du, hdu, hleast, hcl⟩ := hm.settled_old u hu hune
    refine ⟨du, ?_, hleast, ?_⟩
    · rw [alookup_aset_ne _ _ _ _ hue]
      exact hdu
    · intro e' he' hbound
      obtain ⟨d2, hd2, hle2⟩ := hcl e' he' hbound
      exact hpres e'.1 d2 _ hd2 hle2
  · have hve : v ≠ e.1 := fun h => hnvis (h ▸ hm.v_mem)
    rw [alookup_aset_ne _ _ _ _ hve]
    exact hm.v_dist
  · intro e' he' hbound
    rcases List.mem_append.mp he' with he' | he'
    · obtain ⟨d2, hd2, hle2⟩ := hm.v_processed e' he' hbound
      exact hpres e'.1 d2 _ hd2 hle2
    · rw [List.mem_singleton] at he'
      subst he'
      exact ⟨d + e'.2, alookup_aset_self _ _ _, le_refl _⟩

theorem midinv_extend (g : Graph) (s : String) (hz d : ℚ) (v : String)
    (processed : List (String × ℚ)) (st : DState) (e : String × ℚ)
    (hm : MidInv g s hz v d processed st)
    (hrec : d + e.2 ≤ hz → ∃ d2, alookup st.dist e.1 = some d2 ∧ d2 ≤ d + e.2) :
    MidInv g s hz v d (processed ++ [e]) st := by
  refine ⟨hm.sound, hm.src, hm.pq_dist, hm.queued, hm.settled_old, hm.v_mem, hm.v_dist,
    hm.v_least, ?_⟩
  intro e' he' hbound
  rcases List.mem_append.mp he' with he' | he'
  · exact hm.v_processed e' he' hbound
  · rw [List.mem_singleton] at he'
    subst he'
    exact hrec hbound

theorem relaxOne_midinv (g : Graph) (s : String) (hz d : ℚ) (v : String)
    (nbrs : List (String × ℚ)) (hnb : alookup g v = some nbrs) (hw : GraphNonneg g)
    (e : String × ℚ) (he : e ∈ nbrs) (processed : List (String × ℚ)) (st : DState)
    (hm : MidInv g s hz v d processed st) :
    MidInv g s hz v d (processed ++ [e]) (relaxOne hz d st e) := by
  simp only [relaxOne]
  split
  · rename_i hdd
    split
    · rename_i hlk
      refine midinv_push g s hz d v nbrs hnb hw e he processed st hm hdd ?_
      intro old hold
      rw [hlk] at hold
      cases hold
    · rename_i old hlk
      split
      · rename_i hlt
        refine midinv_push g s hz d v nbrs hnb hw e he processed st hm hdd ?_
        intro old' hold'
        rw [hlk] at hold'
        injection hold' with hinj
        subst hinj
        exact hlt
      · rename_i hnlt
        exact midinv_extend g s hz d v processed st e hm
          (fun _ => ⟨old, hlk, le_of_not_lt hnlt⟩)
  · rename_i hdd
    exact midinv_extend g s hz d v processed st e hm (fun hb => absurd hb hdd)

theorem foldl_relax_midinv (g : Graph) (s : String) (hz d : ℚ) (v : String)
    (nbrs : List (String × ℚ)) (hnb : alookup g v = some nbrs) (hw : GraphNonneg g) :
    ∀ (l2 : List (String × ℚ)) (processed : List (String × ℚ)) (st : DState),
      (∀ e ∈ l2, e ∈ nbrs) → MidInv g s hz v d processed st →
      MidInv g s hz v d (processed ++ l2) (l2.foldl (relaxOne hz d) st) := by
  intro l2
  induction l2 with
  | nil =>
    intro processed st _ hm
    simpa using hm
  | cons e l2 ih =>
    intro processed st hsub hm
    have h1 := relaxOne_midinv g s hz d v nbrs hnb hw e (hsub e (List.mem_cons_self _ _))
      processed st hm
    have h2 := ih (processed ++ [e]) (relaxOne hz d st e)
      (fun e' he' => hsub e' (List.mem_cons_of_mem _ he')) h1
    rw [List.append_assoc, List.singleton_append] at h2
    exact h2

theorem inv_of_midinv_full (g : Graph) (s : String) (hz d : ℚ) (v : String)
    (nbrs : List (String × ℚ)) (st : DState) (hnb : alookup g v = some nbrs)
    (hm : MidInv g s hz v d nbrs st) : Inv g s hz st := by
  refine ⟨hm.sound, hm.src, hm.pq_dist, hm.queued, ?_⟩
  intro u hu
  by_cases huv : u = v
  · subst huv
    refine ⟨d, hm.v_dist, hm.v_least, ?_⟩
    intro e he hb
    rw [hnb] at he
    simp only [Option.getD_some] at he
    exact hm.v_processed e he hb
  · exact hm.settled_old u hu huv

theorem inv_of_midinv_nograph (g : Graph) (s : String) (hz d : ℚ) (v : String)
    (st : DState) (hnb : alookup g v = none) (hm : MidInv g s hz v d [] st) :
    Inv g s hz st := by
  refine ⟨hm.sound, hm.src, hm.pq_dist, hm.queued, ?_⟩
  intro u hu
  by_cases huv : u = v
  · subst huv
    refine ⟨d, hm.v_dist, hm.v_least, ?_⟩
    intro e he hb
    rw [hnb] at he
    simp at he
  · exact hm.settled_old u hu huv

/-! ## Pop-step lemmas -/

theorem inv_skip_visited (g : Graph) (s : String) (hz : ℚ) (st : DState) (d : ℚ)
    (v : String) (rest : List (ℚ × String)) (hInv : Inv g s hz st)
    (hpop : popMin st.pq = some ((d, v), rest)) (hvis : v ∈ st.visited) :
    Inv g s hz ⟨st.dist, rest, st.visited⟩ := by
  have hperm := popMin_perm _ _ _ hpop
  refine ⟨hInv.sound, hInv.src, ?_, ?_, hInv.settled⟩
  · intro e he
    exact hInv.pq_dist e (popMin_rest_subset _ _ _ hpop e he)
  · intro x dx hxv hx
    have hmem := hInv.queued x dx hxv hx
    rcases List.mem_cons.mp (hperm.subset hmem) with heq | hin
    · exfalso
      apply hxv
      rw [show x = v from congrArg Prod.snd heq]
      exact hvis
    · exact hin

theorem pop_dist_eq (g : Graph) (s : String) (hz : ℚ) (st : DState) (d : ℚ)
    (v : String) (rest : List (ℚ × String)) (hInv : Inv g s hz st)
    (hpop : popMin st.pq = some ((d, v), rest)) (hnvis : v ∉ st.visited) :
    alookup st.dist v = some d := by
  have hmem : ((d, v) : ℚ × String) ∈ st.pq := popMin_mem _ _ _ hpop
  obtain ⟨d', hd', hle⟩ := hInv.pq_dist (d, v) hmem
  have hq := hInv.queued v d' hnvis hd'
  have hge := popMin_min _ _ _ hpop (d', v) hq
  have heq : d' = d := le_antisymm hle hge
  rw [← heq]
  exact hd'

/-- Any path of length within the horizon is either already recorded with a
smaller distance, or passes through a queued unvisited node with a smaller
queue key. -/
theorem inv_path_bound (g : Graph) (s : String) (hz : ℚ) (st : DState)
    (hw : GraphNonneg g) (hInv : Inv g s hz st) :
    ∀ v L, Reaches g s v L → L ≤ hz →
      (∃ d', alookup st.dist v = some d' ∧ d' ≤ L) ∨
      (∃ u du, u ∉ st.visited ∧ (du, u) ∈ st.pq ∧ du ≤ L) := by
  intro v L hr
  induction hr with
  | refl =>
    intro _
    exact Or.inl ⟨0, hInv.src, le_refl 0⟩
  | @step u v' w dd l hr' hl hm ih =>
    intro hL
    have hw' : 0 ≤ w := by
      refine hw u (v', w) ?_
      rw [hl]
      exact hm
    have hddL : dd ≤ dd + w := le_add_of_nonneg_right hw'
    have hdhz : dd ≤ hz := le_trans hddL hL
    rcases ih hdhz with ⟨du, hdu, hle⟩ | ⟨u', du', h1, h2, h3⟩
    · by_cases huv : u ∈ st.visited
      · obtain ⟨du2, hdu2, hleast, hcl⟩ := hInv.settled u huv
        have heq : du2 = du := by
          have h0 := hdu2.symm.trans hdu
          injection h0
        subst heq
        have hb : du2 + w ≤ hz := le_trans (add_le_add_right hle w) hL
        obtain ⟨d2, hd2, hle2⟩ := hcl (v', w) (by rw [hl]; exact hm) hb
        exact Or.inl ⟨d2, hd2, le_trans hle2 (add_le_add_right hle w)⟩
      · exact Or.inr ⟨u, du, huv, hInv.queued u du huv hdu, le_trans hle hddL⟩
    · exact Or.inr ⟨u', du', h1, h2, le_trans h3 hddL⟩

theorem inv_visit (g : Graph) (s : String) (hz : ℚ) (st : DState) (d : ℚ)
    (v : String) (rest : List (ℚ × String)) (hw : GraphNonneg g) (hInv : Inv g s hz st)
    (hpop : popMin st.pq = some ((d, v), rest)) (hnvis : v ∉ st.visited) :
    Inv g s hz (stepVisit g hz d v ⟨st.dist, rest, v :: st.visited⟩) := by
  have hvd := pop_dist_eq g s hz st d v rest hInv hpop hnvis
  obtain ⟨hvre, hv0, hvhz⟩ := hInv.sound v d hvd
  have hperm := popMin_perm _ _ _ hpop
  have hleast : ∀ L, Reaches g s v L → d ≤ L := by
    intro L hr
    by_cases hL : L ≤ hz
    · rcases inv_path_bound g s hz st hw hInv v L hr hL with
        ⟨d', hd', hle⟩ | ⟨u, du, _, hu2, hu3⟩
      · have heq : d = d' := by
          have h0 := hvd.symm.trans hd'
          injection h0
        rw [heq]
        exact hle
      · exact le_trans (popMin_min _ _ _ hpop (du, u) hu2) hu3
    · exact le_trans hvhz (le_of_lt (not_le.mp hL))
  have hmid : MidInv g s hz v d [] ⟨st.dist, rest, v :: st.visited⟩ := by
    refine ⟨hInv.sound, hInv.src, ?_, ?_, ?_, List.mem_cons_self _ _, hvd, hleast, ?_⟩
    · intro e he
      exact hInv.pq_dist e (popMin_rest_subset _ _ _ hpop e he)
    · intro x dx hxv hx
      have hxv' : x ∉ st.visited := fun h => hxv (List.mem_cons_of_mem _ h)
      have hxne : x ≠ v := fun h => hxv (h ▸ List.mem_cons_self _ _)
      have hmem := hInv.queued x dx hxv' hx
      rcases List.mem_cons.mp (hperm.subset hmem) with heq | hin
      · exact absurd (congrArg Prod.snd heq) hxne
      · exact hin
    · intro u hu hune
      have hu' : u ∈ st.visited := by
        rcases List.mem_cons.mp hu with h | h
        · exact absurd h hune
        · exact h
      exact hInv.settled u hu'
    · intro e he _
      simp at he
  cases hnb : alookup g v with
  | none =>
    have hstep : stepVisit g hz d v ⟨st.dist, rest, v :: st.visited⟩ =
        ⟨st.dist, rest, v :: st.visited⟩ := by
      simp [stepVisit, hnb]
    rw [hstep]
    exact inv_of_midinv_nograph g s hz d v _ hnb hmid
  | some nbrs =>
    have hstep : stepVisit g hz d v ⟨st.dist, rest, v :: st.visited⟩ =
        nbrs.foldl (relaxOne hz d) ⟨st.dist, rest, v :: st.visited⟩ := by
      simp [stepVisit, hnb]
    rw [hstep]
    have h2 := foldl_relax_midinv g s hz d v nbrs hnb hw nbrs []
      ⟨st.dist, rest, v :: st.visited⟩ (fun _ he => he) hmid
    rw [List.nil_append] at h2
    exact inv_of_midinv_full g s hz d v nbrs _ hnb h2

/-! ## The loop preserves the invariant -/

theorem dloop_inv (g : Graph) (s : String) (hz : ℚ) (hw : GraphNonneg g) :
    ∀ (n : ℕ) (st : DState), Inv g s hz st → Inv g s hz (dloop g hz n st) := by
  intro n
  induction n with
  | zero =>
    intro st hInv
    exact hInv
  | succ n ih =>
    intro st hInv
    rw [dloop]
    cases hpop : popMin st.pq with
    | none => exact hInv
    | some p =>
      obtain ⟨⟨d, v⟩, rest⟩ := p
      change Inv g s hz (if v ∈ st.visited then dloop g hz n ⟨st.dist, rest, st.visited⟩
        else if hz < d then dloop g hz n ⟨st.dist, rest, st.visited⟩
        else dloop g hz n (stepVisit g hz d v ⟨st.dist, rest, v :: st.visited⟩))
      by_cases hv : v ∈ st.visited
      · rw [if_pos hv]
        exact ih _ (inv_skip_visited g s hz st d v rest hInv hpop hv)
      · rw [if_neg hv]
        by_cases hd : hz < d
        · rw [if_pos hd]
          exact ih _ (inv_skip_visited g s hz st d v rest hInv hpop (by
            exfalso
            have hvd := pop_dist_eq g s hz st d v rest hInv hpop hv
            have := (hInv.sound v d hvd).2.2
            exact absurd this (not_le.mpr hd)))
        · rw [if_neg hd]
          exact ih _ (inv_visit g s hz st d v rest hw hInv hpop hv)

/-! ## Termination: the fuel drains the queue -/

theorem relaxOne_pq_bound (hz d : ℚ) (st : DState) (e : String × ℚ) :
    (relaxOne hz d st e).pq.length ≤ st.pq.length + 1 ∧
    (relaxOne hz d st e).visited = st.visited := by
  simp only [relaxOne]
  split
  · split
    · refine ⟨?_, rfl⟩
      simp
    · split
      · refine ⟨?_, rfl⟩
        simp
      · exact ⟨Nat.le_succ _, rfl⟩
  · exact ⟨Nat.le_succ _, rfl⟩

theorem foldl_relax_pq_bound (hz d : ℚ) :
    ∀ (l : List (String × ℚ)) (st : DState),
      (l.foldl (relaxOne hz d) st).pq.length ≤ st.pq.length + l.length ∧
      (l.foldl (relaxOne hz d) st).visited = st.visited := by
  intro l
  induction l with
  | nil =>
    intro st
    exact ⟨le_refl _, rfl⟩
  | cons e l ih =>
    intro st
    have h1 := relaxOne_pq_bound hz d st e
    have h2 := ih (relaxOne hz d st e)
    refine ⟨?_, h2.2.trans h1.2⟩
    have h21 := h2.1
    have h11 := h1.1
    simp only [List.foldl_cons, List.length_cons]
    omega

theorem stepVisit_pq_bound (g : Graph) (hz d : ℚ) (v : String) (st : DState) :
    (stepVisit g hz d v st).pq.length ≤
      st.pq.length + ((alookup g v).getD ([] : List (String × ℚ))).length ∧
    (stepVisit g hz d v st).visited = st.visited := by
  cases hnb : alookup g v with
  | none =>
    simp only [stepVisit, hnb]
    exact ⟨Nat.le_add_right _ _, trivial⟩
  | some nbrs =>
    simp only [stepVisit, hnb, Option.getD_some]
    exact foldl_relax_pq_bound hz d nbrs st

theorem remCap_cons (e : String × List (String × ℚ)) (g : Graph) (vis : List String) :
    remCap (e :: g) vis = (if e.1 ∉ vis then e.2.length else 0) + remCap g vis := by
  unfold remCap
  rw [List.filter_cons]
  by_cases h : e.1 ∉ vis
  · simp [h]
  · simp [h]

theorem remCap_mono (g : Graph) (vis : List String) (v : String) :
    remCap g (v :: vis) ≤ remCap g vis := by
  induction g with
  | nil => exact le_refl _
  | cons e g' ih =>
    rw [remCap_cons, remCap_cons]
    by_cases h1 : e.1 ∉ v :: vis
    · have h2 : e.1 ∉ vis := fun h => h1 (List.mem_cons_of_mem _ h)
      rw [if_pos h1, if_pos h2]
      omega
    · rw [if_neg h1]
      by_cases h2 : e.1 ∉ vis
      · rw [if_pos h2]
        omega
      · rw [if_neg h2]
        omega

theorem remCap_visit (g : Graph) (vis : List String) (v : String) (hnv : v ∉ vis) :
    remCap g (v :: vis) + ((alookup g v).getD ([] : List (String × ℚ))).length ≤
      remCap g vis := by
  induction g with
  | nil =>
    simp [remCap, alookup]
  | cons e g' ih =>
    obtain ⟨k, l⟩ := e
    rw [remCap_cons, remCap_cons]
    by_cases hk : k = v
    · subst hk
      have h1 : (k ∉ k :: vis) = False := by simp
      rw [show alookup ((k, l) :: g') k = some l from by simp [alookup]]
      simp only [h1, if_false, if_pos hnv, Option.getD_some]
      have := remCap_mono g' vis k
      omega
    · rw [show alookup ((k, l) :: g') v = alookup g' v from by simp [alookup, hk]]
      have hiff : (k ∉ v :: vis) ↔ (k ∉ vis) := by
        simp only [List.mem_cons, not_or]
        exact ⟨fun h => h.2, fun h => ⟨hk, h⟩⟩
      by_cases h2 : k ∉ vis
      · rw [if_pos (hiff.mpr h2), if_pos h2]
        omega
      · rw [if_neg (fun h => h2 (hiff.mp h)), if_neg h2]
        omega

theorem dloop_drain (g : Graph) (hz : ℚ) :
    ∀ (n : ℕ) (st : DState),
      st.pq.length + remCap g st.visited ≤ n → (dloop g hz n st).pq = [] := by
  intro n
  induction n with
  | zero =>
    intro st h
    have h0 : st.pq.length = 0 := by omega
    exact List.length_eq_zero.mp h0
  | succ n ih =>
    intro st h
    rw [dloop]
    cases hpop : popMin st.pq with
    | none => exact (popMin_eq_none_iff _).mp hpop
    | some p =>
      obtain ⟨⟨d, v⟩, rest⟩ := p
      change (if v ∈ st.visited then dloop g hz n ⟨st.dist, rest, st.visited⟩
        else if hz < d then dloop g hz n ⟨st.dist, rest, st.visited⟩
        else dloop g hz n (stepVisit g hz d v ⟨st.dist, rest, v :: st.visited⟩)).pq = []
      have hlen := popMin_length _ _ _ hpop
      by_cases hv : v ∈ st.visited
      · rw [if_pos hv]
        refine ih _ ?_
        change rest.length + remCap g st.visited ≤ n
        omega
      · rw [if_neg hv]
        by_cases hd : hz < d
        · rw [if_pos hd]
          refine ih _ ?_
          change rest.length + remCap g st.visited ≤ n
          omega
        · rw [if_neg hd]
          refine ih _ ?_
          have hb := stepVisit_pq_bound g hz d v ⟨st.dist, rest, v :: st.visited⟩
          have hb1 : (stepVisit g hz d v ⟨st.dist, rest, v :: st.visited⟩).pq.length ≤
              rest.length + ((alookup g v).getD ([] : List (String × ℚ))).length := hb.1
          have hb2 := hb.2
          have hc := remCap_visit g st.visited v hv
          rw [hb2]
          change (stepVisit g hz d v ⟨st.dist, rest, v :: st.visited⟩).pq.length +
            remCap g (v :: st.visited) ≤ n
          omega

/-! ## Initial state and final characterization -/

theorem inv_init (g : Graph) (s : String) (hz : ℚ) (hh : 0 ≤ hz) :
    Inv g s hz ⟨[(s, 0)], [((0 : ℚ), s)], []⟩ := by
  refine ⟨?_, ?_, ?_, ?_, ?_⟩
  · intro v dv hv
    simp only [alookup] at hv
    by_cases hsv : s = v
    · rw [if_pos hsv] at hv
      injection hv with hinj
      subst hsv
      subst hinj
      exact ⟨Reaches.refl, le_refl 0, hh⟩
    · rw [if_neg hsv] at hv
      cases hv
  · simp [alookup]
  · intro e he
    rw [List.mem_singleton] at he
    subst he
    exact ⟨0, by simp [alookup], le_refl 0⟩
  · intro x dx _ hx
    simp only [alookup] at hx
    by_cases hsx : s = x
    · rw [if_pos hsx] at hx
      injection hx with hinj
      subst hsx
      subst hinj
      exact List.mem_singleton.mpr rfl
    · rw [if_neg hsx] at hx
      cases hx
  · intro u hu
    simp at hu

theorem remCap_nil_visited (g : Graph) :
    remCap g [] = (g.map (fun e => e.2.length)).sum := by
  unfold remCap
  have hfil : g.filter (fun e => decide (e.1 ∉ ([] : List String))) = g := by
    refine List.filter_eq_self.mpr ?_
    intro e _
    simp
  rw [hfil]

/-- The full characterization of the embedded Dijkstra run: every recorded
distance is realized by a path, is minimal among all paths, and lies within
the horizon; and every node with a path within the horizon is recorded. -/
theorem dijkstra_char (g : Graph) (s : String) (hz : ℚ) (hw : GraphNonneg g)
    (hh : 0 ≤ hz) :
    (∀ v dv, alookup (dijkstra g s hz) v = some dv →
        Reaches g s v dv ∧ (∀ L, Reaches g s v L → dv ≤ L) ∧ 0 ≤ dv ∧ dv ≤ hz) ∧
    (∀ v L, Reaches g s v L → L ≤ hz → ∃ dv, alookup (dijkstra g s hz) v = some dv) := by
  have hInv : Inv g s hz (dloop g hz (dijkstraFuel g) ⟨[(s, 0)], [((0 : ℚ), s)], []⟩) :=
    dloop_inv g s hz hw _ _ (inv_init g s hz hh)
  have hpq : (dloop g hz (dijkstraFuel g) ⟨[(s, 0)], [((0 : ℚ), s)], []⟩).pq = [] := by
    refine dloop_drain g hz _ _ ?_
    have hrc := remCap_nil_visited g
    simp only [List.length_singleton, dijkstraFuel]
    omega
  constructor
  · intro v dv hv
    have hv' : alookup
        (dloop g hz (dijkstraFuel g) ⟨[(s, 0)], [((0 : ℚ), s)], []⟩).dist v = some dv := hv
    have hvis : v ∈ (dloop g hz (dijkstraFuel g) ⟨[(s, 0)], [((0 : ℚ), s)], []⟩).visited := by
      by_contra hnv
      have hq := hInv.queued v dv hnv hv'
      rw [hpq] at hq
      simp at hq
    obtain ⟨du, hdu, hleast, _⟩ := hInv.settled v hvis
    have heq : du = dv := by
      have h0 := hdu.symm.trans hv'
      injection h0
    subst heq
    obtain ⟨hre, h0, hhz⟩ := hInv.sound v du hv'
    exact ⟨hre, hleast, h0, hhz⟩
  · intro v L hr hL
    rcases inv_path_bound g s hz _ hw hInv v L hr hL with ⟨d', hd', _⟩ | ⟨u, du, _, hu2, _⟩
    · exact ⟨d', hd'⟩
    · rw [hpq] at hu2
      simp at hu2

/-- The source always keeps its initial distance 0. -/
theorem dijkstra_self_zero (g : Graph) (s : String) (hz : ℚ) (hw : GraphNonneg g)
    (hh : 0 ≤ hz) : alookup (dijkstra g s hz) s = some 0 :=
  (dloop_inv g s hz hw _ _ (inv_init g s hz hh)).src

/-- On a graph whose adjacency lists are mirror-symmetric, travel times are
symmetric. -/
theorem dijkstra_symm_of_sym (g : Graph) (hs : SymGraph g) (hw : GraphNonneg g)
    (hz : ℚ) (hh : 0 ≤ hz) (a b : String) :
    alookup (dijkstra g a hz) b = alookup (dijkstra g b hz) a := by
  obtain ⟨hvalA, hkeyA⟩ := dijkstra_char g a hz hw hh
  obtain ⟨hvalB, hkeyB⟩ := dijkstra_char g b hz hw hh
  cases hA : alookup (dijkstra g a hz) b with
  | some dab =>
    obtain ⟨hreA, hleastA, h0A, hhzA⟩ := hvalA b dab hA
    have hreBA : Reaches g b a dab := reaches_symm g hs a b dab hreA
    obtain ⟨dba, hB⟩ := hkeyB a dab hreBA hhzA
    obtain ⟨hreB, hleastB, _, _⟩ := hvalB a dba hB
    have h1 : dba ≤ dab := hleastB dab hreBA
    have h2 : dab ≤ dba := hleastA dba (reaches_symm g hs b a dba hreB)
    rw [hB]
    exact congrArg some (le_antisymm h2 h1)
  | none =>
    cases hB : alookup (dijkstra g b hz) a with
    | none => rfl
    | some dba =>
      obtain ⟨hreB, _, _, hhzB⟩ := hvalB a dba hB
      have hreAB : Reaches g a b dba := reaches_symm g hs b a dba hreB
      obtain ⟨d', hd'⟩ := hkeyA b dba hreAB hhzB
      rw [hA] at hd'
      cases hd'

theorem pos_aappend (g : Graph) (k x : String) (w : ℚ) (hg : GraphPos g)
    (hw : 0 < w) : GraphPos (aappend g k (x, w)) := by
  intro u e he
  rw [mem_getD_aappend] at he
  rcases he with he | ⟨_, he⟩
  · exact hg u e he
  · subst he
    exact hw

theorem build_graph_pos (avg : List ((String × String) × ℚ))
    (hw : ∀ e ∈ avg, 0 < e.2) : GraphPos (build_graph avg) := by
  have main : ∀ (l : List ((String × String) × ℚ)) (g : Graph),
      (∀ e ∈ l, 0 < e.2) → GraphPos g →
      GraphPos (l.foldl
        (fun g kv => aappend (aappend g kv.1.1 (kv.1.2, kv.2)) kv.1.2 (kv.1.1, kv.2)) g) := by
    intro l
    induction l with
    | nil => intro g _ hg; exact hg
    | cons kv rest ih =>
      intro g hl hg
      refine ih _ (fun e he => hl e (List.mem_cons_of_mem _ he)) ?_
      have hkv : 0 < kv.2 := hl kv (List.mem_cons_self _ _)
      exact pos_aappend _ _ _ _ (pos_aappend _ _ _ _ hg hkv) hkv
  refine main avg [] hw ?_
  intro u e he
  simp [alookup] at he

theorem empty_graph_pos : GraphPos ([] : Graph) := by
  intro u e he
  simp [alookup] at he

theorem empty_graph_nonneg : GraphNonneg ([] : Graph) := by
  intro u e he
  simp [alookup] at he

/-! ## Claim theorems -/

/-- Claim C1: every station id in the output `stations` mapping is also a key
of `travel_times`, and its row maps the source itself to distance exactly 0,
even when the source has no edges in the graph (the graph weights are
nonnegative travel times). -/
theorem main_round_trip (stations : List (String × Station)) (g : Graph)
    (hw : GraphNonneg g) :
    ∀ sid st0, alookup (mainOutput stations g).stations sid = some st0 →
      ∃ row, alookup (mainOutput stations g).travel_times sid = some row ∧
        alookup row sid = some 0 := by
  intro sid st0 hsid
  have hsid' : alookup stations sid = some st0 := hsid
  have hl : alookup (travelTable stations g) sid = some (dijkstra g sid 120) := by
    unfold travelTable
    rw [alookup_map_of_key stations (fun k => dijkstra g k 120) sid, hsid']
    rfl
  exact ⟨dijkstra g sid 120, hl, dijkstra_self_zero g sid 120 hw (by norm_num)⟩

/-- Witness for C1 at a one-station input whose graph is empty. -/
theorem main_round_trip_witness :
    ∃ row, alookup (mainOutput [("A", Station.mk "A" "Alpha" 0 0)] ([] : Graph)).travel_times
        "A" = some row ∧ alookup row "A" = some 0 :=
  main_round_trip [("A", Station.mk "A" "Alpha" 0 0)] [] empty_graph_nonneg "A"
    (Station.mk "A" "Alpha" 0 0) (by with_unfolding_all decide)

/-- Counterexample for C2: the single-character id S starts with the excluded
marker, yet the code does not exclude it — it first strips the trailing S and
then keeps the empty identifier, because stripping runs before exclusion. -/
theorem normalize_exclusion_order_cex :
    ("S" : String) ≠ "" ∧ startsWithS "S" = true ∧ normalize_stop_id "S" = some "" := by
  with_unfolding_all decide

/-- Claim C2 (amended): the three branches of the identifier normalizer hold
with the stripping rule applied before the exclusion rule: prefix-S ids of
length at least 2 are excluded regardless of suffix, non-excluded ids ending
in N or S lose exactly their final character, all other non-excluded ids are
unchanged, and the boundary id S is stripped to the empty id and kept. -/
theorem normalize_branches (sid : String) (_hne : sid ≠ "") :
    (2 ≤ sid.length → startsWithS sid = true → normalize_stop_id sid = none) ∧
    (startsWithS sid = false →
      ((endsWithChar sid 'N' || endsWithChar sid 'S') = true →
        normalize_stop_id sid = some (dropLastChar sid)) ∧
      ((endsWithChar sid 'N' || endsWithChar sid 'S') = false →
        normalize_stop_id sid = some sid)) ∧
    normalize_stop_id "S" = some "" := by
  refine ⟨?_, ?_, by with_unfolding_all decide⟩
  · intro h2 hS
    simp only [normalize_stop_id]
    by_cases hdir : (endsWithChar sid 'N' || endsWithChar sid 'S') = true
    · rw [if_pos hdir, if_pos]
      rw [startsWithS_dropLastChar_of_two_le sid h2]
      exact hS
    · rw [if_neg hdir, if_pos hS]
  · intro hS
    constructor
    · intro hdir
      simp only [normalize_stop_id]
      rw [if_pos hdir, if_neg]
      intro habs
      rw [startsWithS_dropLastChar sid habs] at hS
      simp at hS
    · intro hdir
      simp only [normalize_stop_id]
      have h1 : (if (endsWithChar sid 'N' || endsWithChar sid 'S') = true
          then dropLastChar sid else sid) = sid := by
        rw [hdir]
        simp
      have h2 : ¬ (startsWithS sid = true) := by
        rw [hS]
        simp
      rw [h1, if_neg h2]

/-- Witness for C2 at the directional platform id 101N. -/
theorem normalize_branches_witness :
    normalize_stop_id "101N" = some (dropLastChar "101N") :=
  ((normalize_branches "101N" (by with_unfolding_all decide)).2.1
    (by with_unfolding_all decide)).1 (by with_unfolding_all decide)

/-- Claim C3: for a trip with an associated route, an edge is emitted for a
consecutive pair of the sequence-sorted visits exactly when its weight lies
strictly between 0 and 30 minutes; a trip with no associated route emits
nothing. -/
theorem trip_edges_emitted_iff (trip_routes : List (String × String)) (trip_id : String)
    (stops : List (ℕ × String × ℤ)) :
    (alookup trip_routes trip_id = none → tripConnections trip_routes trip_id stops = []) ∧
    (∀ route, alookup trip_routes trip_id = some route →
      ∀ c, c ∈ tripConnections trip_routes trip_id stops ↔
        ∃ p ∈ consecPairs (sortStops stops),
          (0 < p.2.2.2 - p.1.2.2 ∧ p.2.2.2 - p.1.2.2 < 30) ∧
          c = ⟨p.1.2.1, p.2.2.1, ((p.2.2.2 - p.1.2.2 : ℤ) : ℚ), route⟩) := by
  constructor
  · intro h
    unfold tripConnections
    rw [h]
  · intro route h c
    unfold tripConnections
    rw [h]
    exact mem_connectStops route (sortStops stops) c

/-- Witness for C3: the spec's example trip emits exactly the 5-minute edge
and drops the 35-minute one, and a routeless trip emits nothing. -/
theorem trip_edges_emitted_iff_witness :
    tripConnections [("t1", "R")] "t1" [(1, "v1", 10), (2, "v2", 15), (3, "v3", 50)] =
      [⟨"v1", "v2", 5, "R"⟩] ∧
    tripConnections [] "t1" [(1, "v1", 10), (2, "v2", 15), (3, "v3", 50)] = [] ∧
    ((⟨"v1", "v2", 5, "R"⟩ : Connection) ∈
        tripConnections [("t1", "R")] "t1" [(1, "v1", 10), (2, "v2", 15), (3, "v3", 50)] ↔
      ∃ p ∈ consecPairs (sortStops [(1, "v1", 10), (2, "v2", 15), (3, "v3", 50)]),
        (0 < p.2.2.2 - p.1.2.2 ∧ p.2.2.2 - p.1.2.2 < 30) ∧
        (⟨"v1", "v2", 5, "R"⟩ : Connection) =
          ⟨p.1.2.1, p.2.2.1, ((p.2.2.2 - p.1.2.2 : ℤ) : ℚ), "R"⟩) :=
  ⟨by with_unfolding_all decide,
   (trip_edges_emitted_iff [] "t1" [(1, "v1", 10), (2, "v2", 15), (3, "v3", 50)]).1
     (by with_unfolding_all decide),
   (trip_edges_emitted_iff [("t1", "R")] "t1"
     [(1, "v1", 10), (2, "v2", 15), (3, "v3", 50)]).2 "R" (by with_unfolding_all decide)
     ⟨"v1", "v2", 5, "R"⟩⟩

/-- Claim C4: the shortest-path engine records exactly the nodes reachable
within the horizon, each at its minimal cumulative travel time, and the
source always carries its trivial self-distance 0 even when absent from the
graph. -/
theorem dijkstra_contract (g : Graph) (s : String) (hz : ℚ)
    (hww : GraphPos g) (hh : 0 < hz) :
    (∀ v, (∃ dv, alookup (dijkstra g s hz) v = some dv) ↔
      (∃ L, Reaches g s v L ∧ L ≤ hz)) ∧
    (∀ v dv, alookup (dijkstra g s hz) v = some dv →
      Reaches g s v dv ∧ (∀ L, Reaches g s v L → dv ≤ L) ∧ dv ≤ hz) ∧
    alookup (dijkstra g s hz) s = some 0 := by
  have hw : GraphNonneg g := fun u e he => le_of_lt (hww u e he)
  have hh' : 0 ≤ hz := le_of_lt hh
  obtain ⟨hval, hkey⟩ := dijkstra_char g s hz hw hh'
  refine ⟨?_, ?_, dijkstra_self_zero g s hz hw hh'⟩
  · intro v
    constructor
    · rintro ⟨dv, hdv⟩
      obtain ⟨hre, _, _, hhz⟩ := hval v dv hdv
      exact ⟨dv, hre, hhz⟩
    · rintro ⟨L, hre, hL⟩
      exact hkey v L hre hL
  · intro v dv hdv
    obtain ⟨hre, hleast, _, hhz⟩ := hval v dv hdv
    exact ⟨hre, hleast, hhz⟩

/-- Witness for C4: the 3-node line graph of the spec at horizons 10 and 5,
and a source absent from the empty graph. -/
theorem dijkstra_contract_witness :
    dijkstra (build_graph [(("A", "B"), 3), (("B", "C"), 4)]) "A" 10 =
      [("A", 0), ("B", 3), ("C", 7)] ∧
    dijkstra (build_graph [(("A", "B"), 3), (("B", "C"), 4)]) "A" 5 =
      [("A", 0), ("B", 3)] ∧
    dijkstra ([] : Graph) "X" 40 = [("X", 0)] ∧
    ((∃ dv, alookup (dijkstra (build_graph [(("A", "B"), 3), (("B", "C"), 4)]) "A" 10) "C" =
        some dv) ↔
      (∃ L, Reaches (build_graph [(("A", "B"), 3), (("B", "C"), 4)]) "A" "C" L ∧ L ≤ 10)) ∧
    alookup (dijkstra ([] : Graph) "X" 40) "X" = some 0 :=
  ⟨by with_unfolding_all decide,
   by with_unfolding_all decide,
   by with_unfolding_all decide,
   (dijkstra_contract (build_graph [(("A", "B"), 3), (("B", "C"), 4)]) "A" 10
     (build_graph_pos [(("A", "B"), 3), (("B", "C"), 4)] (by with_unfolding_all decide))
     (by with_unfolding_all decide)).1 "C",
   (dijkstra_contract ([] : Graph) "X" 40 empty_graph_pos
     (by with_unfolding_all decide)).2.2⟩

/-- Counterexample for C5: the spec's own scenario of differing directional
averaged weights, (A,B) at 2 and (B,A) at 6, still yields equal travel times
in both directions, because `build_graph` inserts every averaged edge in both
directions. -/
theorem symmetry_cex :
    alookup (dijkstra (build_graph [(("A", "B"), 2), (("B", "A"), 6)]) "A" 120) "B" =
      some 2 ∧
    alookup (dijkstra (build_graph [(("A", "B"), 2), (("B", "A"), 6)]) "B" 120) "A" =
      some 2 := by
  with_unfolding_all decide

/-- Claim C5 (amended): the implementation does force symmetry — for every
averaged-connection input with nonnegative weights and every horizon, the
computed travel time from a to b equals the computed travel time from b to
a, because every averaged edge is inserted in both directions. -/
theorem build_graph_travel_symmetric (avg : List ((String × String) × ℚ))
    (hw : ∀ e ∈ avg, 0 ≤ e.2) (hz : ℚ) (hh : 0 ≤ hz) (a b : String) :
    alookup (dijkstra (build_graph avg) a hz) b =
      alookup (dijkstra (build_graph avg) b hz) a :=
  dijkstra_symm_of_sym (build_graph avg) (sym_build_graph avg)
    (build_graph_nonneg avg hw) hz hh a b

/-- Witness for C5 at the differing-directional-weights input. -/
theorem build_graph_travel_symmetric_witness :
    alookup (dijkstra (build_graph [(("A", "B"), 2), (("B", "A"), 6)]) "A" 120) "B" =
      alookup (dijkstra (build_graph [(("A", "B"), 2), (("B", "A"), 6)]) "B" 120) "A" :=
  build_graph_travel_symmetric [(("A", "B"), 2), (("B", "A"), 6)]
    (by with_unfolding_all decide) 120 (by with_unfolding_all decide) "A" "B"

/-- Claim C6: each transfer record inserts a bidirectional edge of weight
min_transfer_time/60 minutes (2 minutes when unspecified), skipping records
with an excluded endpoint or a self-loop, and creating missing endpoints
with an empty neighbor list before the edge is appended. -/
theorem transfer_record_spec (g : Graph) (r : TransferRow) :
    (startsWithS r.from_stop_id = true ∨ startsWithS r.to_stop_id = true →
      addTransferStep g r = .ok g) ∧
    (r.from_stop_id = r.to_stop_id → addTransferStep g r = .ok g) ∧
    transferMinutes none = .ok 2 ∧
    (∀ q, transferMinutes (some (some q)) = .ok (q / 60)) ∧
    (startsWithS r.from_stop_id = false → startsWithS r.to_stop_id = false →
      r.from_stop_id ≠ r.to_stop_id →
      ∀ t, transferMinutes r.min_transfer_time = .ok t →
        ∃ g', addTransferStep g r = .ok g' ∧
          alookup g' r.from_stop_id =
            some (((alookup g r.from_stop_id).getD []) ++ [(r.to_stop_id, t)]) ∧
          alookup g' r.to_stop_id =
            some (((alookup g r.to_stop_id).getD []) ++ [(r.from_stop_id, t)]) ∧
          ∀ k, k ≠ r.from_stop_id → k ≠ r.to_stop_id → alookup g' k = alookup g k) := by
  refine ⟨addTransferStep_skip_excluded g r, addTransferStep_skip_self g r, ?_,
    fun q => rfl, ?_⟩
  · unfold transferMinutes
    norm_num
  · intro h1 h2 h3 t ht
    exact addTransferStep_ok_lookup g r h1 h2 h3 t ht

/-- Witness for C6: a default-time transfer into an empty graph creates both
endpoints and the 2-minute edge in both directions; an excluded endpoint is
skipped. -/
theorem transfer_record_spec_witness :
    (∃ g', addTransferStep [] (TransferRow.mk "B" "A" none) = .ok g' ∧
      alookup g' "B" = some ((((alookup ([] : Graph) "B").getD [])) ++ [("A", 2)]) ∧
      alookup g' "A" = some ((((alookup ([] : Graph) "A").getD [])) ++ [("B", 2)]) ∧
      ∀ k, k ≠ "B" → k ≠ "A" → alookup g' k = alookup ([] : Graph) k) ∧
    addTransferStep [] (TransferRow.mk "S1" "B" none) = .ok [] :=
  ⟨(transfer_record_spec [] (TransferRow.mk "B" "A" none)).2.2.2.2
     (by with_unfolding_all decide) (by with_unfolding_all decide)
     (by with_unfolding_all decide) 2 (by with_unfolding_all decide),
   (transfer_record_spec [] (TransferRow.mk "S1" "B" none)).1
     (Or.inl (by with_unfolding_all decide))⟩

/-- Claim C7: a missing transfers source is non-fatal: the transfer injector
returns the graph unchanged together with the warning flag, and the pipeline
completes successfully with the table computed solely from trip-derived
edges. -/
theorem missing_transfers_nonfatal (g : Graph) (stations : List (String × Station))
    (connections : List Connection) :
    add_transfers g none = .ok (g, true) ∧
    runPipeline stations connections none =
      .ok (mainOutput stations (build_graph (average_connections connections)), true) :=
  ⟨rfl, rfl⟩

/-- Claim C8: the aggregated weight of an ordered station pair is the
arithmetic mean of all observed raw weights for that pair; every observed
pair yields an entry and unobserved pairs yield none. -/
theorem average_is_mean (connections : List Connection) (a b : String) :
    ((connections.filter (fun c => decide ((c.from_stop, c.to_stop) = (a, b)))) = [] →
      alookup (average_connections connections) (a, b) = none) ∧
    (∀ c0, c0 ∈ connections → (c0.from_stop, c0.to_stop) = (a, b) →
      alookup (average_connections connections) (a, b) =
        some ((((connections.filter
            (fun c => decide ((c.from_stop, c.to_stop) = (a, b)))).map
              Connection.travel_time).sum) /
          (((connections.filter
            (fun c => decide ((c.from_stop, c.to_stop) = (a, b)))).map
              Connection.travel_time).length))) := by
  constructor
  · intro h
    rw [alookup_average_connections, h]
    rfl
  · intro c0 hc0 hkey
    rw [alookup_average_connections]
    have hne : (connections.filter
        (fun c => decide ((c.from_stop, c.to_stop) = (a, b)))) ≠ [] := by
      intro habs
      have hmem : c0 ∈ connections.filter
          (fun c => decide ((c.from_stop, c.to_stop) = (a, b))) := by
        rw [List.mem_filter]
        exact ⟨hc0, by simp [hkey]⟩
      rw [habs] at hmem
      simp at hmem
    have hmapne : ((connections.filter
        (fun c => decide ((c.from_stop, c.to_stop) = (a, b)))).map
          Connection.travel_time) ≠ [] := by
      intro habs
      exact hne (List.map_eq_nil_iff.mp habs)
    simp only [if_neg hmapne]

/-- Witness for C8: weights 4, 6, 5 for the pair (A, B) average to exactly
5. -/
theorem average_is_mean_witness :
    alookup (average_connections
      [Connection.mk "A" "B" 4 "r", Connection.mk "A" "B" 6 "r",
        Connection.mk "A" "B" 5 "r"]) ("A", "B") =
      some (((([Connection.mk "A" "B" 4 "r", Connection.mk "A" "B" 6 "r",
        Connection.mk "A" "B" 5 "r"].filter
          (fun c => decide ((c.from_stop, c.to_stop) = ("A", "B")))).map
            Connection.travel_time).sum) /
        ((([Connection.mk "A" "B" 4 "r", Connection.mk "A" "B" 6 "r",
          Connection.mk "A" "B" 5 "r"].filter
            (fun c => decide ((c.from_stop, c.to_stop) = ("A", "B")))).map
              Connection.travel_time).length)) ∧
    alookup (average_connections
      [Connection.mk "A" "B" 4 "r", Connection.mk "A" "B" 6 "r",
        Connection.mk "A" "B" 5 "r"]) ("A", "B") = some 5 :=
  ⟨(average_is_mean
      [Connection.mk "A" "B" 4 "r", Connection.mk "A" "B" 6 "r",
        Connection.mk "A" "B" 5 "r"] "A" "B").2 (Connection.mk "A" "B" 4 "r")
      (by with_unfolding_all decide) (by with_unfolding_all decide),
   by with_unfolding_all decide⟩

/-- Claim C9: every edge insertion by the graph builder or the transfer
injector is mirrored: after construction, each neighbor entry (b, w) in a's
adjacency list has a matching entry (a, w) in b's list. -/
theorem graph_bidirectional :
    (∀ avg : List ((String × String) × ℚ), SymGraph (build_graph avg)) ∧
    (∀ (g g' : Graph) (rows : List TransferRow), SymGraph g →
      processTransfers g rows = .ok g' → SymGraph g') :=
  ⟨sym_build_graph, fun g g' rows hs h => sym_processTransfers rows g g' hs h⟩

/-- Witness for C9 on a one-edge averaged input followed by one transfer. -/
theorem graph_bidirectional_witness :
    SymGraph (build_graph [(("A", "B"), 3)]) ∧
    SymGraph [("A", [("B", 3), ("C", 2)]), ("B", [("A", 3)]), ("C", [("A", 2)])] :=
  ⟨graph_bidirectional.1 [(("A", "B"), 3)],
   graph_bidirectional.2 (build_graph [(("A", "B"), 3)])
     [("A", [("B", 3), ("C", 2)]), ("B", [("A", 3)]), ("C", [("A", 2)])]
     [TransferRow.mk "A" "C" none]
     (graph_bidirectional.1 [(("A", "B"), 3)]) (by with_unfolding_all decide)⟩

/-- Counterexample for C10: a record whose min_transfer_time is present but
not numeric does NOT abort when an endpoint is in the excluded sub-network —
the skip checks run before the numeric conversion. -/
theorem transfer_parse_skip_cex :
    (TransferRow.mk "S1" "A" (some none)).min_transfer_time = some none ∧
    addTransferStep [] (TransferRow.mk "S1" "A" (some none)) = .ok [] := by
  constructor
  · rfl
  · with_unfolding_all decide

/-- Claim C10 (amended): for records that pass the exclusion and self-loop
checks, the 2-minute default applies only when min_transfer_time is entirely
absent; a present but non-numeric value makes the step raise, and the raise
aborts the whole transfer pass. -/
theorem transfer_parse_abort (g : Graph) (r : TransferRow)
    (h1 : startsWithS r.from_stop_id = false) (h2 : startsWithS r.to_stop_id = false)
    (h3 : r.from_stop_id ≠ r.to_stop_id) :
    (r.min_transfer_time = some none → addTransferStep g r = .error ()) ∧
    (r.min_transfer_time = none → ∃ g', addTransferStep g r = .ok g' ∧
      alookup g' r.from_stop_id =
        some (((alookup g r.from_stop_id).getD []) ++ [(r.to_stop_id, 2)])) ∧
    (∀ rest, addTransferStep g r = .error () →
      processTransfers g (r :: rest) = .error ()) := by
  refine ⟨?_, ?_, ?_⟩
  · intro hmt
    refine addTransferStep_error g r h1 h2 h3 ?_
    rw [hmt]
    rfl
  · intro hmt
    have ht : transferMinutes r.min_transfer_time = .ok 2 := by
      rw [hmt]
      unfold transferMinutes
      norm_num
    obtain ⟨g', hok, hfrom, _, _⟩ := addTransferStep_ok_lookup g r h1 h2 h3 2 ht
    exact ⟨g', hok, hfrom⟩
  · intro rest herr
    unfold processTransfers
    rw [herr]

/-- Witness for C10: a present-but-non-numeric value on a non-skipped record
errors and aborts the transfer pass. -/
theorem transfer_parse_abort_witness :
    addTransferStep [] (TransferRow.mk "B" "A" (some none)) = .error () ∧
    processTransfers [] [TransferRow.mk "B" "A" (some none)] = .error () :=
  ⟨(transfer_parse_abort [] (TransferRow.mk "B" "A" (some none))
      (by with_unfolding_all decide) (by with_unfolding_all decide)
      (by with_unfolding_all decide)).1 rfl,
   (transfer_parse_abort [] (TransferRow.mk "B" "A" (some none))
      (by with_unfolding_all decide) (by with_unfolding_all decide)
      (by with_unfolding_all decide)).2.2 []
     ((transfer_parse_abort [] (TransferRow.mk "B" "A" (some none))
        (by with_unfolding_all decide) (by with_unfolding_all decide)
        (by with_unfolding_all decide)).1 rfl)⟩

end ProcessGtfs
